import Mathlib

/-!
Verification of the go-morse-midi program (src/main.go).

The program is embedded shallowly:
* Go strings are `List Char` (the source only manipulates ASCII; `strings.ToLower`
  is modelled on the ASCII range).
* Go byte slices are `List Nat`, each element a byte value `< 256`.
* Go `int` values are `Nat` (all values involved are non-negative; claims are
  stated below the range where 64-bit arithmetic is exact).
* The fallible parts (`bpm = 0` division panic) are modelled with `Option`.
-/

set_option maxHeartbeats 1000000

/-! ## Small arithmetic facts about the bit operations used by the source -/

theorem nat_and_127 (n : Nat) : n &&& 127 = n % 128 := by
  have h := Nat.and_pow_two_sub_one_eq_mod n 7
  norm_num at h
  exact h

theorem nat_and_128_eq (n : Nat) : n &&& 128 = if n / 128 % 2 = 1 then 128 else 0 := by
  have h : (128 : Nat) = 2 ^ 7 := by norm_num
  rw [h, Nat.and_two_pow]
  rw [Nat.testBit_to_div_mod]
  norm_num
  split <;> simp_all

theorem nat_shr7 (n : Nat) : n >>> 7 = n / 128 := by
  rw [Nat.shiftRight_eq_div_pow]

theorem nat_shr8 (n : Nat) : n >>> 8 = n / 256 := by
  rw [Nat.shiftRight_eq_div_pow]

theorem nat_shl8 (n : Nat) : n <<< 8 = n * 256 := by
  rw [Nat.shiftLeft_eq]

theorem nat_or_128 (x : Nat) (h : x < 128) : x ||| 128 = x + 128 := by
  have h2 : (2 : Nat) ^ 7 * 1 + x = 2 ^ 7 * 1 ||| x := Nat.mul_add_lt_is_or h 1
  rw [Nat.or_comm]
  norm_num at h2
  rw [← h2]
  omega

theorem nat_mul256_or (a c : Nat) (h : c < 256) : (a * 256) ||| c = a * 256 + c := by
  have h2 : (2 : Nat) ^ 8 * a + c = 2 ^ 8 * a ||| c := Nat.mul_add_lt_is_or h a
  norm_num [Nat.mul_comm] at h2
  rw [← h2]

/-! ## VLQ encoder (`writeVarLength`, src/main.go lines 41–57)

The Go function builds an accumulator by packing 7-bit chunks (each tagged with
the continuation bit `0x80`) above the terminal chunk, then emits the
accumulator byte by byte, stopping at the first byte whose high bit is clear.
`packGo` is the first loop (`for value >>= 7; value > 0; value >>= 7`),
`emitGo` the second. -/

def packGo (v buf : Nat) : Nat :=
  if v > 0 then packGo (v >>> 7) ((buf <<< 8) ||| ((v &&& 0x7F) ||| 0x80)) else buf
termination_by v
decreasing_by
  rw [nat_shr7]
  omega

def emitGo (buffer : Nat) : List Nat :=
  if buffer &&& 0x80 ≠ 0 then buffer % 256 :: emitGo (buffer >>> 8) else [buffer % 256]
termination_by buffer
decreasing_by
  rw [nat_shr8]
  rw [nat_and_128_eq] at *
  split at *
  · omega
  · simp_all

def writeVarLength (value : Nat) : List Nat :=
  emitGo (packGo (value >>> 7) (value &&& 0x7F))

/-- The continuation bytes of a value: the base-128 digits of `v`,
most significant first, each with the high bit `0x80` set. -/
def contBytes (v : Nat) : List Nat :=
  if v = 0 then [] else contBytes (v / 128) ++ [v % 128 + 128]
termination_by v
decreasing_by
  exact Nat.div_lt_self (by omega) (by omega)

theorem emitGo_of_lt (b : Nat) (h : b < 128) : emitGo b = [b] := by
  rw [emitGo]
  rw [nat_and_128_eq]
  have h1 : b / 128 = 0 := Nat.div_eq_of_lt h
  rw [h1]
  norm_num
  omega

theorem emitGo_push (b c : Nat) (h1 : 128 ≤ c) (h2 : c < 256) :
    emitGo (b * 256 + c) = c :: emitGo b := by
  rw [emitGo]
  rw [nat_and_128_eq]
  have hd : (b * 256 + c) / 128 % 2 = 1 := by omega
  rw [hd]
  have hm : (b * 256 + c) % 256 = c := by omega
  have hs : (b * 256 + c) >>> 8 = b := by
    rw [nat_shr8]
    omega
  simp [hm, hs]

theorem emitGo_packGo (v : Nat) : ∀ b : Nat, emitGo (packGo v b) = contBytes v ++ emitGo b := by
  induction v using Nat.strong_induction_on with
  | _ v ih =>
    intro b
    rw [packGo, contBytes]
    by_cases hv : v = 0
    · simp [hv]
    · have hvpos : v > 0 := by omega
      simp only [hvpos, if_pos, hv, if_neg, not_false_iff]
      have harg : (b <<< 8) ||| ((v &&& 0x7F) ||| 0x80) = b * 256 + (v % 128 + 128) := by
        rw [nat_and_127, nat_shl8, nat_or_128 (v % 128) (by omega),
          nat_mul256_or b (v % 128 + 128) (by omega)]
      rw [harg, nat_shr7]
      rw [ih (v / 128) (Nat.div_lt_self (by omega) (by omega)) (b * 256 + (v % 128 + 128))]
      rw [emitGo_push b (v % 128 + 128) (by omega) (by omega)]
      simp

theorem writeVarLength_eq (n : Nat) :
    writeVarLength n = contBytes (n / 128) ++ [n % 128] := by
  rw [writeVarLength, nat_shr7, nat_and_127, emitGo_packGo, emitGo_of_lt (n % 128) (by omega)]

theorem contBytes_zero : contBytes 0 = [] := by
  rw [contBytes]
  norm_num

theorem contBytes_pos (v : Nat) (h : v ≠ 0) :
    contBytes v = contBytes (v / 128) ++ [v % 128 + 128] := by
  rw [contBytes]
  simp [h]

/-- Modelled from the spec: the inverse VLQ algorithm named by the spec's
output guarantee — accumulate 7 bits per byte while the high bit is set,
stop at the first byte whose high bit is clear. -/
def decodeVLQgo (acc : Nat) : List Nat → Nat
  | [] => acc
  | b :: rest =>
    if b &&& 0x80 ≠ 0 then decodeVLQgo (acc * 128 + (b &&& 0x7F)) rest
    else acc * 128 + (b &&& 0x7F)

/-- Modelled from the spec: decoding starts with an empty (zero) accumulator. -/
def decodeVLQ (l : List Nat) : Nat :=
  decodeVLQgo 0 l

theorem decodeVLQgo_cont (v : Nat) :
    ∀ acc l, decodeVLQgo acc (contBytes v ++ l) =
      decodeVLQgo (acc * 128 ^ (contBytes v).length + v) l := by
  induction v using Nat.strong_induction_on with
  | _ v ih =>
    intro acc l
    by_cases hv : v = 0
    · simp [hv, contBytes_zero]
    · rw [contBytes_pos v hv]
      rw [List.append_assoc, ih (v / 128) (Nat.div_lt_self (by omega) (by omega))]
      have hstep : decodeVLQgo (acc * 128 ^ (contBytes (v / 128)).length + v / 128)
          ([v % 128 + 128] ++ l) =
          decodeVLQgo ((acc * 128 ^ (contBytes (v / 128)).length + v / 128) * 128
            + (v % 128)) l := by
        rw [List.singleton_append, decodeVLQgo]
        rw [nat_and_128_eq, nat_and_127]
        have hc : (v % 128 + 128) / 128 % 2 = 1 := by omega
        have hm : (v % 128 + 128) % 128 = v % 128 := by omega
        rw [hc, hm]
        norm_num
      rw [hstep]
      congr 1
      simp [List.length_append, pow_succ]
      ring_nf
      omega

theorem decodeVLQ_writeVarLength (n : Nat) : decodeVLQ (writeVarLength n) = n := by
  rw [writeVarLength_eq, decodeVLQ, decodeVLQgo_cont]
  rw [decodeVLQgo]
  rw [nat_and_128_eq, nat_and_127]
  have hc : n % 128 / 128 = 0 := by omega
  rw [hc]
  norm_num
  omega

/-- Well-formed VLQ byte sequence: non-empty, every byte except the last is a
byte with its high (continuation) bit set, and the last byte has it clear. -/
def wfVLQ (l : List Nat) : Prop :=
  ∃ init last, l = init ++ [last] ∧ (∀ b ∈ init, 128 ≤ b ∧ b < 256) ∧ last < 128

theorem mem_contBytes (v : Nat) : ∀ b ∈ contBytes v, 128 ≤ b ∧ b < 256 := by
  induction v using Nat.strong_induction_on with
  | _ v ih =>
    intro b hb
    by_cases hv : v = 0
    · rw [hv, contBytes_zero] at hb
      simp at hb
    · rw [contBytes_pos v hv] at hb
      rw [List.mem_append] at hb
      rcases hb with hb | hb
      · exact ih (v / 128) (Nat.div_lt_self (by omega) (by omega)) b hb
      · simp at hb
        omega

theorem wfVLQ_writeVarLength (n : Nat) : wfVLQ (writeVarLength n) := by
  refine ⟨contBytes (n / 128), n % 128, writeVarLength_eq n, mem_contBytes (n / 128), by omega⟩

theorem decodeVLQgo_lt (l : List Nat) :
    ∀ acc, decodeVLQgo acc l < (acc + 1) * 128 ^ l.length := by
  induction l with
  | nil =>
    intro acc
    simp [decodeVLQgo]
  | cons b rest ih =>
    intro acc
    rw [decodeVLQgo]
    have hb : b &&& 0x7F < 128 := by
      rw [nat_and_127]
      omega
    have hmono : (acc * 128 + (b &&& 0x7F) + 1) * 128 ^ rest.length ≤
        (acc + 1) * 128 ^ (b :: rest).length := by
      rw [List.length_cons, pow_succ]
      have h1 : acc * 128 + (b &&& 0x7F) + 1 ≤ (acc + 1) * 128 := by nlinarith
      calc (acc * 128 + (b &&& 0x7F) + 1) * 128 ^ rest.length
          ≤ (acc + 1) * 128 * 128 ^ rest.length := by
            exact Nat.mul_le_mul_right _ h1
        _ = (acc + 1) * (128 ^ rest.length * 128) := by ring
    split
    · exact lt_of_lt_of_le (ih (acc * 128 + (b &&& 0x7F))) hmono
    · have h1 : acc * 128 + (b &&& 0x7F) < (acc + 1) * 128 := by nlinarith
      have h2 : (acc + 1) * 128 ≤ (acc + 1) * 128 ^ (b :: rest).length := by
        rw [List.length_cons, pow_succ]
        have : 1 ≤ 128 ^ rest.length := Nat.one_le_pow _ _ (by omega)
        nlinarith
      omega

theorem contBytes_length_le (k : Nat) : ∀ v, v < 128 ^ k → (contBytes v).length ≤ k := by
  induction k with
  | zero =>
    intro v hv
    norm_num at hv
    rw [hv, contBytes_zero]
    simp
  | succ k ih =>
    intro v hv
    by_cases h0 : v = 0
    · rw [h0, contBytes_zero]
      simp
    · rw [contBytes_pos v h0]
      rw [List.length_append]
      have hdiv : v / 128 < 128 ^ k := by
        rw [Nat.div_lt_iff_lt_mul (by omega)]
        rw [pow_succ] at hv
        exact hv
      have := ih (v / 128) hdiv
      simp
      omega

theorem writeVarLength_minimal (n : Nat) (l : List Nat)
    (hwf : wfVLQ l) (hdec : decodeVLQ l = n) :
    (writeVarLength n).length ≤ l.length := by
  obtain ⟨init, last, hl, _, _⟩ := hwf
  have hlen : 1 ≤ l.length := by
    rw [hl]
    simp
  have hub : n < 128 ^ l.length := by
    rw [← hdec, decodeVLQ]
    have := decodeVLQgo_lt l 0
    simpa using this
  have hdivub : n / 128 < 128 ^ (l.length - 1) := by
    rw [Nat.div_lt_iff_lt_mul (by omega)]
    calc n < 128 ^ l.length := hub
      _ = 128 ^ (l.length - 1) * 128 := by
          rw [← pow_succ]
          congr 1
          omega
  have hcb := contBytes_length_le (l.length - 1) (n / 128) hdivub
  rw [writeVarLength_eq, List.length_append]
  simp
  omega

/-- C1: the VLQ encoder `writeVarLength` reproduces the canonical bit-exact
test vectors: `0 → [0x00]`, `64 → [0x40]`, `127 → [0x7F]`, `128 → [0x81,0x00]`,
`8192 → [0xC0,0x00]`, `16383 → [0xFF,0x7F]`, `16384 → [0x81,0x80,0x00]`. -/
theorem C1_vlq_vectors :
    writeVarLength 0 = [0x00] ∧
    writeVarLength 64 = [0x40] ∧
    writeVarLength 127 = [0x7F] ∧
    writeVarLength 128 = [0x81, 0x00] ∧
    writeVarLength 8192 = [0xC0, 0x00] ∧
    writeVarLength 16383 = [0xFF, 0x7F] ∧
    writeVarLength 16384 = [0x81, 0x80, 0x00] := by
  refine ⟨?_, ?_, ?_, ?_, ?_, ?_, ?_⟩ <;>
    norm_num [writeVarLength_eq, contBytes_zero, contBytes_pos]

/-- C2: for every `n` below a large bound (2^49, under which the Go `int`
arithmetic in the encoder is exact), the spec's inverse algorithm decodes
`writeVarLength n` back to `n`; the encoding is well formed (all bytes but the
last have the high bit set, the last has it clear) and no well-formed encoding
of `n` is shorter, so there are no unnecessary leading continuation bytes. -/
theorem C2_vlq_roundtrip_minimal (n : Nat) (h : n < 2 ^ 49) :
    decodeVLQ (writeVarLength n) = n ∧
    wfVLQ (writeVarLength n) ∧
    ∀ l, wfVLQ l → decodeVLQ l = n → (writeVarLength n).length ≤ l.length := by
  exact ⟨decodeVLQ_writeVarLength n, wfVLQ_writeVarLength n,
    fun l hwf hdec => writeVarLength_minimal n l hwf hdec⟩

/-- Witness for C2 at the concrete input 16384. -/
theorem C2_witness :
    decodeVLQ (writeVarLength 16384) = 16384 ∧ wfVLQ (writeVarLength 16384) := by
  have h := C2_vlq_roundtrip_minimal 16384 (by norm_num)
  exact ⟨h.1, h.2.1⟩

/-! ## Symbol Mapper (`textToMorse`, src/main.go lines 23–38)

Strings are modelled as `List Char`. `strings.ToLower` is modelled on the
ASCII range (the lookup table only contains ASCII keys and splitting is on the
ASCII space). `strings.Split(s, " ")` is `splitOnSpace`; `strings.Join(l, sep)`
is `joinSep sep l`; the Go map `morseCode` is an association list lookup. -/

def toLowerChar (c : Char) : Char :=
  if 65 ≤ c.toNat ∧ c.toNat ≤ 90 then Char.ofNat (c.toNat + 32) else c

theorem char_toNat_ofNat (n : Nat) (h : n < 55296) : (Char.ofNat n).toNat = n := by
  have hv : n.isValidChar := Or.inl h
  simp [Char.ofNat, hv, Char.ofNatAux, Char.toNat, UInt32.toNat, BitVec.toNat_ofNatLt]

def morseTable : List (Char × List Char) :=
  [('a', ".-".toList), ('b', "-...".toList), ('c', "-.-.".toList), ('d', "-..".toList),
   ('e', ".".toList), ('f', "..-.".toList), ('g', "--.".toList), ('h', "....".toList),
   ('i', "..".toList), ('j', ".---".toList), ('k', "-.-".toList), ('l', ".-..".toList),
   ('m', "--".toList), ('n', "-.".toList), ('o', "---".toList), ('p', ".--.".toList),
   ('q', "--.-".toList), ('r', ".-.".toList), ('s', "...".toList), ('t', "-".toList),
   ('u', "..-".toList), ('v', "...-".toList), ('w', ".--".toList), ('x', "-..-".toList),
   ('y', "-.--".toList), ('z', "--..".toList)]

def morseCode (c : Char) : Option (List Char) :=
  morseTable.lookup c

def splitOnSpace : List Char → List (List Char)
  | [] => [[]]
  | c :: rest =>
    if c = ' ' then [] :: splitOnSpace rest
    else
      match splitOnSpace rest with
      | [] => [[c]]
      | w :: ws => (c :: w) :: ws

def joinSep {α : Type} (sep : List α) : List (List α) → List α
  | [] => []
  | [w] => w
  | w :: x :: ws => w ++ sep ++ joinSep sep (x :: ws)

def textToMorse (text : List Char) : List Char :=
  joinSep ['/'] ((splitOnSpace (text.map toLowerChar)).map (fun word =>
    joinSep [' '] ((word.map toLowerChar).filterMap morseCode)))

theorem toLowerChar_idem (c : Char) : toLowerChar (toLowerChar c) = toLowerChar c := by
  unfold toLowerChar
  by_cases h : 65 ≤ c.toNat ∧ c.toNat ≤ 90
  · rw [if_pos h]
    have ht : (Char.ofNat (c.toNat + 32)).toNat = c.toNat + 32 :=
      char_toNat_ofNat (c.toNat + 32) (by omega)
    rw [if_neg]
    rw [ht]
    omega
  · rw [if_neg h, if_neg h]

theorem map_toLowerChar_idem (s : List Char) :
    (s.map toLowerChar).map toLowerChar = s.map toLowerChar := by
  rw [List.map_map]
  apply List.map_congr_left
  intro c _
  exact toLowerChar_idem c

theorem splitOnSpace_ne_nil (s : List Char) : splitOnSpace s ≠ [] := by
  induction s with
  | nil => simp [splitOnSpace]
  | cons c rest ih =>
    rw [splitOnSpace]
    split
    · simp
    · split
      · simp
      · simp

theorem splitOnSpace_length (s : List Char) :
    (splitOnSpace s).length = s.count ' ' + 1 := by
  induction s with
  | nil => simp [splitOnSpace]
  | cons c rest ih =>
    rw [splitOnSpace]
    by_cases hc : c = ' '
    · rw [if_pos hc]
      simp only [List.length_cons, ih]
      rw [hc]
      rw [List.count_cons_self]
    · rw [if_neg hc]
      have hcount : (c :: rest).count ' ' = rest.count ' ' := by
        rw [List.count_cons]
        simp [Ne.symm hc, hc]
      cases hsplit : splitOnSpace rest with
      | nil => exact absurd hsplit (splitOnSpace_ne_nil rest)
      | cons w ws =>
        simp only [List.length_cons, hcount]
        rw [← ih, hsplit]
        simp

theorem mem_splitOnSpace (s : List Char) :
    ∀ w ∈ splitOnSpace s, ∀ c ∈ w, c ∈ s ∧ c ≠ ' ' := by
  induction s with
  | nil =>
    intro w hw c hc
    simp [splitOnSpace] at hw
    rw [hw] at hc
    simp at hc
  | cons a rest ih =>
    intro w hw c hc
    rw [splitOnSpace] at hw
    by_cases ha : a = ' '
    · rw [if_pos ha] at hw
      rcases List.mem_cons.mp hw with h | h
      · rw [h] at hc
        simp at hc
      · have := ih w h c hc
        exact ⟨List.mem_cons_of_mem a this.1, this.2⟩
    · rw [if_neg ha] at hw
      cases hsplit : splitOnSpace rest with
      | nil => exact absurd hsplit (splitOnSpace_ne_nil rest)
      | cons w0 ws =>
        rw [hsplit] at hw
        rcases List.mem_cons.mp hw with h | h
        · rw [h] at hc
          rcases List.mem_cons.mp hc with h2 | h2
          · rw [h2]
            exact ⟨List.mem_cons_self a rest, ha⟩
          · have hw0 : w0 ∈ splitOnSpace rest := by
              rw [hsplit]
              exact List.mem_cons_self w0 ws
            have := ih w0 hw0 c h2
            exact ⟨List.mem_cons_of_mem a this.1, this.2⟩
        · have hwmem : w ∈ splitOnSpace rest := by
            rw [hsplit]
            exact List.mem_cons_of_mem w0 h
          have := ih w hwmem c hc
          exact ⟨List.mem_cons_of_mem a this.1, this.2⟩

theorem mem_joinSep {α : Type} (sep : List α) (l : List (List α)) :
    ∀ c ∈ joinSep sep l, c ∈ sep ∨ ∃ w ∈ l, c ∈ w := by
  induction l with
  | nil =>
    intro c hc
    simp [joinSep] at hc
  | cons w ws ih =>
    intro c hc
    cases ws with
    | nil =>
      rw [joinSep] at hc
      exact Or.inr ⟨w, List.mem_cons_self w [], hc⟩
    | cons x ws2 =>
      rw [joinSep] at hc
      rcases List.mem_append.mp hc with h | h
      · rcases List.mem_append.mp h with h2 | h2
        · exact Or.inr ⟨w, List.mem_cons_self w _, h2⟩
        · exact Or.inl h2
      · rcases ih c h with h2 | h2
        · exact Or.inl h2
        · obtain ⟨w2, hw2, hcw2⟩ := h2
          exact Or.inr ⟨w2, List.mem_cons_of_mem w hw2, hcw2⟩

theorem lookup_mem {l : List (Char × List Char)} {c : Char} {v : List Char}
    (h : l.lookup c = some v) : ∃ p ∈ l, p.2 = v := by
  induction l with
  | nil => simp [List.lookup] at h
  | cons p es ih =>
    obtain ⟨k, b⟩ := p
    rw [List.lookup] at h
    by_cases hk : c == k
    · rw [hk] at h
      simp at h
      exact ⟨(k, b), List.mem_cons_self _ _, by simpa using h⟩
    · rw [Bool.not_eq_true] at hk
      rw [hk] at h
      obtain ⟨p2, hp2, hv⟩ := ih h
      exact ⟨p2, List.mem_cons_of_mem _ hp2, hv⟩

theorem morseTable_codes :
    ∀ p ∈ morseTable, ∀ ch ∈ p.2, ch = '.' ∨ ch = '-' := by decide

theorem morseCode_chars {c : Char} {code : List Char} (h : morseCode c = some code) :
    ∀ ch ∈ code, ch = '.' ∨ ch = '-' := by
  obtain ⟨p, hp, hv⟩ := lookup_mem h
  intro ch hch
  exact morseTable_codes p hp ch (by rw [hv]; exact hch)

theorem toLowerChar_of_mem_map_lower {s : List Char} {c : Char}
    (h : c ∈ s.map toLowerChar) : toLowerChar c = c := by
  obtain ⟨a, _, rfl⟩ := List.mem_map.mp h
  exact toLowerChar_idem a

/-- Every character of the mapper's output is a dot, a dash, a space or a slash. -/
theorem textToMorse_alphabet (text : List Char) :
    ∀ c ∈ textToMorse text, c = '.' ∨ c = '-' ∨ c = ' ' ∨ c = '/' := by
  intro c hc
  unfold textToMorse at hc
  rcases mem_joinSep _ _ c hc with h | ⟨w, hw, hcw⟩
  · simp at h
    tauto
  · obtain ⟨word, _, rfl⟩ := List.mem_map.mp hw
    rcases mem_joinSep _ _ c hcw with h | ⟨code, hcode, hccode⟩
    · simp at h
      tauto
    · obtain ⟨a, _, ha⟩ := List.mem_filterMap.mp hcode
      rcases morseCode_chars ha c hccode with h | h
      · tauto
      · tauto

/-- C7: on every input, the mapper output is the word-structured join of the
letters' codes (codes joined by a single space, words by a slash, unrecognized
characters silently dropped by the partial lookup with no placeholder), every
output character is one of `.`, `-`, ` `, `/`, and the result is
case-insensitive. -/
theorem C7_mapper_contract (text : List Char) :
    (∀ c ∈ textToMorse text, c = '.' ∨ c = '-' ∨ c = ' ' ∨ c = '/') ∧
    textToMorse (text.map toLowerChar) = textToMorse text ∧
    textToMorse text = joinSep ['/'] ((splitOnSpace (text.map toLowerChar)).map
      (fun w => joinSep [' '] (w.filterMap morseCode))) := by
  refine ⟨textToMorse_alphabet text, ?_, ?_⟩
  · unfold textToMorse
    rw [map_toLowerChar_idem]
  · unfold textToMorse
    congr 1
    apply List.map_congr_left
    intro w hw
    have hfix : w.map toLowerChar = w := by
      have h1 : w.map toLowerChar = w.map id := by
        apply List.map_congr_left
        intro a ha
        exact toLowerChar_of_mem_map_lower ((mem_splitOnSpace _ w hw a ha).1)
      simpa using h1
    rw [hfix]

/-- C6 counterexample: the claimed vector `"SOS" → "...---..."` is false — the
code joins the three letter codes with single spaces. -/
theorem C6_counterexample : textToMorse "SOS".toList ≠ "...---...".toList := by decide

/-- C6 amended: `"SOS"` maps to `"... --- ..."` (codes joined by single
spaces) and `"sos sos"` maps to `"... --- .../... --- ..."`. -/
theorem C6_amended :
    textToMorse "SOS".toList = "... --- ...".toList ∧
    textToMorse "sos sos".toList = "... --- .../... --- ...".toList := by
  exact ⟨by decide, by decide⟩

theorem morseCode_symbol_none {c : Char}
    (h : c = '.' ∨ c = '-' ∨ c = ' ' ∨ c = '/') : morseCode c = none := by
  rcases h with rfl | rfl | rfl | rfl <;> decide

theorem toLowerChar_symbol_fix {c : Char}
    (h : c = '.' ∨ c = '-' ∨ c = ' ' ∨ c = '/') : toLowerChar c = c := by
  rcases h with rfl | rfl | rfl | rfl <;> decide

theorem joinSep_replicate_nil (k : Nat) :
    joinSep ['/'] (List.replicate (k + 1) ([] : List Char)) = List.replicate k '/' := by
  induction k with
  | zero => rfl
  | succ k ih =>
    rw [List.replicate_succ] at ih
    simp only [List.replicate_succ]
    rw [joinSep, ih]
    rfl

/-- Mapping any string made only of the four output symbols yields one slash
per space of the input: every word maps to the empty code string. -/
theorem textToMorse_symbols (s : List Char)
    (h : ∀ c ∈ s, c = '.' ∨ c = '-' ∨ c = ' ' ∨ c = '/') :
    textToMorse s = List.replicate (s.count ' ') '/' := by
  unfold textToMorse
  have hl : s.map toLowerChar = s := by
    have h1 : s.map toLowerChar = s.map id := by
      apply List.map_congr_left
      intro a ha
      exact toLowerChar_symbol_fix (h a ha)
    simpa using h1
  rw [hl]
  have hwords : (splitOnSpace s).map (fun w =>
      joinSep [' '] ((w.map toLowerChar).filterMap morseCode)) =
      List.replicate (splitOnSpace s).length ([] : List Char) := by
    have hlen : ((splitOnSpace s).map (fun w =>
        joinSep [' '] ((w.map toLowerChar).filterMap morseCode))).length =
        (splitOnSpace s).length := by simp
    rw [← hlen]
    apply List.eq_replicate_of_mem
    intro b hb
    obtain ⟨w, hw, rfl⟩ := List.mem_map.mp hb
    have hwsym : ∀ c ∈ w, c = '.' ∨ c = '-' ∨ c = ' ' ∨ c = '/' := by
      intro c hcw
      exact h c (mem_splitOnSpace s w hw c hcw).1
    have hwfix : w.map toLowerChar = w := by
      have h1 : w.map toLowerChar = w.map id := by
        apply List.map_congr_left
        intro a ha
        exact toLowerChar_symbol_fix (hwsym a ha)
      simpa using h1
    rw [hwfix]
    have hnone : w.filterMap morseCode = [] := by
      rw [List.filterMap_eq_nil_iff]
      intro a ha
      exact morseCode_symbol_none (hwsym a ha)
    rw [hnone]
    rfl
  rw [hwords, splitOnSpace_length]
  exact joinSep_replicate_nil (s.count ' ')

/-- C8 counterexample: `"sos"` is already lowercase, yet mapping it twice
gives `"//"`, not `"... --- ..."` — the second pass drops every dot and dash. -/
theorem C8_counterexample :
    "sos".toList.map toLowerChar = "sos".toList ∧
    textToMorse (textToMorse ("sos".toList.map toLowerChar)) ≠
      textToMorse ("sos".toList.map toLowerChar) := by
  exact ⟨by decide, by decide⟩

/-- C8 amended: mapping twice is not idempotent — the second application turns
the first output into one slash per space of that output, so the two agree
exactly when the single mapping's output is empty. -/
theorem C8_amended (x : List Char) :
    textToMorse (textToMorse x) = List.replicate ((textToMorse x).count ' ') '/' ∧
    (textToMorse (textToMorse x) = textToMorse x ↔ textToMorse x = []) := by
  have hmain := textToMorse_symbols (textToMorse x) (textToMorse_alphabet x)
  refine ⟨hmain, ?_, ?_⟩
  · intro heq
    have hcount : (textToMorse x).count ' ' = 0 := by
      conv_lhs => rw [← heq, hmain]
      rw [List.count_replicate]
      simp
    rw [← heq, hmain, hcount]
    rfl
  · intro h0
    rw [h0]
    rfl

/-! ## Track Builder (`createMIDI`, src/main.go lines 59–128)

The in-memory construction is embedded as pure functions on `List Nat`
(byte values). `createMIDIdata` is the byte buffer `data` that `createMIDI`
passes to `os.WriteFile`; the Go division `60000000 / bpm` panics for
`bpm = 0`, which is modelled by returning `none`. -/

theorem nat_and_255 (n : Nat) : n &&& 255 = n % 256 := by
  have h := Nat.and_pow_two_sub_one_eq_mod n 8
  norm_num at h
  exact h

theorem nat_shr16 (n : Nat) : n >>> 16 = n / 65536 := by
  rw [Nat.shiftRight_eq_div_pow]

theorem nat_shr24 (n : Nat) : n >>> 24 = n / 16777216 := by
  rw [Nat.shiftRight_eq_div_pow]

def microsecondsPerMinute : Nat := 60000000

def ticksPerBeat : Nat := 96

def dot : Nat := ticksPerBeat / 2

def dash : Nat := dot * 3

def pause : Nat := dot * 7

def note : Nat := 76

def velocity : Nat := 100

def tempoEvent (bpm : Nat) : List Nat :=
  let microsecondsPerQuarterNote := microsecondsPerMinute / bpm
  [0x00, 0xFF, 0x51, 0x03,
    (microsecondsPerQuarterNote >>> 16) &&& 0xFF,
    (microsecondsPerQuarterNote >>> 8) &&& 0xFF,
    microsecondsPerQuarterNote &&& 0xFF]

def addNote (time duration : Nat) : List Nat :=
  writeVarLength time ++ [0x90, note, velocity] ++
    writeVarLength duration ++ [0x80, note, 0x00]

def trackBody : List Char → Nat → List Nat × Nat
  | [], time => ([], time)
  | c :: rest, time =>
    if c = '.' then
      ((addNote time dot ++ (trackBody rest dot).1), (trackBody rest dot).2)
    else if c = '-' then
      ((addNote time dash ++ (trackBody rest dot).1), (trackBody rest dot).2)
    else if c = ' ' then trackBody rest (4 * dot)
    else if c = '/' then trackBody rest pause
    else trackBody rest time

def trackBytes (morse : List Char) (bpm : Nat) : List Nat :=
  tempoEvent bpm ++ (trackBody morse 0).1 ++
    writeVarLength (trackBody morse 0).2 ++ [0xFF, 0x2F, 0x00]

def headerBytes : List Nat :=
  [77, 84, 104, 100, 0x00, 0x00, 0x00, 0x06, 0x00, 0x00, 0x00, 0x01, 0x00, ticksPerBeat]

def trackHeaderBytes : List Nat :=
  [77, 84, 114, 107]

/-- `binary.BigEndian.PutUint32` on the `uint32` value `v`. -/
def putUint32be (v : Nat) : List Nat :=
  [(v >>> 24) % 256, (v >>> 16) % 256, (v >>> 8) % 256, v % 256]

def createMIDIdata (morse : List Char) (bpm : Nat) : Option (List Nat) :=
  if bpm = 0 then none
  else
    some (headerBytes ++ trackHeaderBytes ++
      putUint32be ((trackBytes morse bpm).length % 2 ^ 32) ++ trackBytes morse bpm)

/-- Modelled from the spec (claim C3's state machine): the bytes one symbol
contributes and the next pending delta-time. -/
def specStep (c : Char) (pending : Nat) : List Nat × Nat :=
  if c = '.' then
    (writeVarLength pending ++ [0x90, 76, 100] ++ writeVarLength 48 ++ [0x80, 76, 0], 48)
  else if c = '-' then
    (writeVarLength pending ++ [0x90, 76, 100] ++ writeVarLength 144 ++ [0x80, 76, 0], 48)
  else if c = ' ' then ([], 192)
  else if c = '/' then ([], 336)
  else ([], pending)

/-- Modelled from the spec (claim C3): process the symbols in order starting
from a pending delta-time, then append VLQ(final pending delta) and the
end-of-track meta-event. -/
def specTrackBody : List Char → Nat → List Nat
  | [], pending => writeVarLength pending ++ [0xFF, 0x2F, 0x00]
  | c :: rest, pending =>
    (specStep c pending).1 ++ specTrackBody rest (specStep c pending).2

theorem trackBody_spec (morse : List Char)
    (hsym : ∀ c ∈ morse, c = '.' ∨ c = '-' ∨ c = ' ' ∨ c = '/') :
    ∀ t, (trackBody morse t).1 ++ writeVarLength (trackBody morse t).2 ++
      [0xFF, 0x2F, 0x00] = specTrackBody morse t := by
  induction morse with
  | nil =>
    intro t
    simp [trackBody, specTrackBody]
  | cons c rest ih =>
    intro t
    have hrest : ∀ c2 ∈ rest, c2 = '.' ∨ c2 = '-' ∨ c2 = ' ' ∨ c2 = '/' := by
      intro c2 hc2
      exact hsym c2 (List.mem_cons_of_mem c hc2)
    have hdot : dot = 48 := by decide
    have hdash : dash = 144 := by decide
    have hgap : 4 * dot = 192 := by decide
    have hpause : pause = 336 := by decide
    rcases hsym c (List.mem_cons_self c rest) with rfl | rfl | rfl | rfl
    · have e1 : trackBody ('.' :: rest) t =
          (addNote t dot ++ (trackBody rest dot).1, (trackBody rest dot).2) := by
        rw [trackBody]
        simp
      have e2 : specStep '.' t =
          (writeVarLength t ++ [0x90, 76, 100] ++ writeVarLength 48 ++ [0x80, 76, 0], 48) := by
        rw [specStep]
        simp
      rw [specTrackBody, e1, e2, hdot, ← ih hrest 48]
      simp [addNote, note, velocity, hdot]
    · have e1 : trackBody ('-' :: rest) t =
          (addNote t dash ++ (trackBody rest dot).1, (trackBody rest dot).2) := by
        rw [trackBody]
        simp
      have e2 : specStep '-' t =
          (writeVarLength t ++ [0x90, 76, 100] ++ writeVarLength 144 ++ [0x80, 76, 0], 48) := by
        rw [specStep]
        simp
      rw [specTrackBody, e1, e2, hdot, ← ih hrest 48]
      simp [addNote, note, velocity, hdash]
    · have e1 : trackBody (' ' :: rest) t = trackBody rest (4 * dot) := by
        rw [trackBody]
        simp
      have e2 : specStep ' ' t = ([], 192) := by
        rw [specStep]
        simp
      rw [specTrackBody, e1, e2, hgap, ← ih hrest 192]
      simp
    · have e1 : trackBody ('/' :: rest) t = trackBody rest pause := by
        rw [trackBody]
        simp
      have e2 : specStep '/' t = ([], 336) := by
        rw [specStep]
        simp
      rw [specTrackBody, e1, e2, hpause, ← ih hrest 336]
      simp

/-- C3: for every Morse symbol string and valid BPM, the track buffer is the
tempo event followed by the spec's per-symbol state machine output: pending
delta starts at 0; a dot emits VLQ(pending), note-on `0x90 76 100`, VLQ(48),
note-off `0x80 76 0` and sets pending to 48; a dash does the same with
duration 144 and pending 48; a space emits nothing and sets pending to 192;
`/` emits nothing and sets pending to 336; at the end VLQ(final pending) and
`0xFF 0x2F 0x00` are appended. -/
theorem C3_track_builder (morse : List Char) (bpm : Nat) (hbpm : 1 ≤ bpm)
    (hsym : ∀ c ∈ morse, c = '.' ∨ c = '-' ∨ c = ' ' ∨ c = '/') :
    trackBytes morse bpm = tempoEvent bpm ++ specTrackBody morse 0 := by
  rw [trackBytes, ← trackBody_spec morse hsym 0]
  simp

/-- Witness for C3 on the concrete symbol string `".- /."` at BPM 120. -/
theorem C3_witness :
    trackBytes ".- /.".toList 120 = tempoEvent 120 ++ specTrackBody ".- /.".toList 0 := by
  exact C3_track_builder ".- /.".toList 120 (by norm_num) (by decide)

theorem tempoEvent_eq (bpm : Nat) :
    tempoEvent bpm = [0x00, 0xFF, 0x51, 0x03,
      60000000 / bpm / 65536 % 256, 60000000 / bpm / 256 % 256, 60000000 / bpm % 256] := by
  unfold tempoEvent microsecondsPerMinute
  simp only [nat_shr16, nat_shr8, nat_and_255]

/-- Modelled from the spec (claim C4): big-endian value of a 3-byte payload. -/
def fromBE3 : List Nat → Nat
  | [a, b, c] => a * 65536 + b * 256 + c
  | _ => 0

/-- Modelled from the spec (claim C5): big-endian value of a 4-byte length field. -/
def fromBE4 : List Nat → Nat
  | [a, b, c, d] => a * 16777216 + b * 65536 + c * 256 + d
  | _ => 0

theorem trackBytes_tempo_payload (morse : List Char) (bpm : Nat) :
    List.take 3 (List.drop 4 (trackBytes morse bpm)) =
      [60000000 / bpm / 65536 % 256, 60000000 / bpm / 256 % 256, 60000000 / bpm % 256] := by
  rw [trackBytes, tempoEvent_eq]
  rfl

theorem trackBytes_tempo_header (morse : List Char) (bpm : Nat) :
    List.take 4 (trackBytes morse bpm) = [0x00, 0xFF, 0x51, 0x03] := by
  rw [trackBytes, tempoEvent_eq]
  rfl

/-- C4 counterexample: at BPM 1 the quotient 60,000,000 does not fit in three
bytes; the emitted payload decodes to 9,668,352, not to 60,000,000 / 1, so the
payload is not the 3-byte big-endian encoding of the quotient. -/
theorem C4_counterexample :
    List.take 3 (List.drop 4 (trackBytes [] 1)) = [0x93, 0x87, 0x00] ∧
    fromBE3 (List.take 3 (List.drop 4 (trackBytes [] 1))) ≠ 60000000 / 1 := by
  have h := trackBytes_tempo_payload [] 1
  norm_num at h
  rw [h]
  norm_num [fromBE3]

/-- C4 amended: for every positive BPM the track begins with the delta-0 tempo
meta-event `0xFF 0x51 0x03` whose payload is the 3-byte big-endian encoding of
`(60,000,000 / BPM) mod 2^24`; this equals the 3-byte big-endian encoding of
`60,000,000 / BPM` itself whenever the quotient fits in 24 bits (so the byte
conversions truncate for BPM ≤ 3); BPM 120 gives `0x07 0xA1 0x20` (500000) and
BPM 60 gives `0x0F 0x42 0x40` (1000000). -/
theorem C4_amended (morse : List Char) (bpm : Nat) (h : 1 ≤ bpm) :
    List.take 4 (trackBytes morse bpm) = [0x00, 0xFF, 0x51, 0x03] ∧
    List.take 3 (List.drop 4 (trackBytes morse bpm)) =
      [60000000 / bpm % 2 ^ 24 / 65536, 60000000 / bpm % 2 ^ 24 / 256 % 256,
        60000000 / bpm % 2 ^ 24 % 256] ∧
    (60000000 / bpm < 2 ^ 24 →
      fromBE3 (List.take 3 (List.drop 4 (trackBytes morse bpm))) = 60000000 / bpm) ∧
    List.take 3 (List.drop 4 (trackBytes morse 120)) = [0x07, 0xA1, 0x20] ∧
    List.take 3 (List.drop 4 (trackBytes morse 60)) = [0x0F, 0x42, 0x40] := by
  refine ⟨trackBytes_tempo_header morse bpm, ?_, ?_, ?_, ?_⟩
  · rw [trackBytes_tempo_payload]
    have e : ∀ m : Nat, ([m / 65536 % 256, m / 256 % 256, m % 256] : List Nat) =
        [m % 2 ^ 24 / 65536, m % 2 ^ 24 / 256 % 256, m % 2 ^ 24 % 256] := by
      intro m
      have h1 : m / 65536 % 256 = m % 2 ^ 24 / 65536 := by omega
      have h2 : m / 256 % 256 = m % 2 ^ 24 / 256 % 256 := by omega
      have h3 : m % 256 = m % 2 ^ 24 % 256 := by omega
      rw [h1, h2, h3]
    exact e (60000000 / bpm)
  · intro hfit
    rw [trackBytes_tempo_payload]
    simp only [fromBE3]
    generalize hm : 60000000 / bpm = m at hfit ⊢
    omega
  · rw [trackBytes_tempo_payload]
  · rw [trackBytes_tempo_payload]

/-- Witness for C4's amended statement at BPM 120 with an empty symbol string. -/
theorem C4_witness :
    List.take 3 (List.drop 4 (trackBytes [] 120)) = [0x07, 0xA1, 0x20] := by
  exact (C4_amended [] 120 (by norm_num)).2.2.2.1

/-- C5: for every Morse symbol string and positive BPM (with the realizable
bound that the track fits a 32-bit length), the produced file is exactly the
14-byte `MThd` header (big-endian length 6, format 0, one track, 96 ticks per
beat — so byte 13 is 96) followed by `MTrk`, the 4-byte big-endian track
length, and the track buffer, the length field decoding to the exact byte
length of the track buffer that follows. -/
theorem C5_file_layout (morse : List Char) (bpm : Nat) (h1 : 1 ≤ bpm)
    (h2 : (trackBytes morse bpm).length < 2 ^ 32) :
    createMIDIdata morse bpm =
      some (headerBytes ++ trackHeaderBytes ++
        putUint32be ((trackBytes morse bpm).length) ++ trackBytes morse bpm) ∧
    headerBytes = [77, 84, 104, 100, 0, 0, 0, 6, 0, 0, 0, 1, 0, 96] ∧
    headerBytes.length = 14 ∧
    trackHeaderBytes = [77, 84, 114, 107] ∧
    List.get? (headerBytes ++ trackHeaderBytes ++ putUint32be ((trackBytes morse bpm).length) ++
      trackBytes morse bpm) 13 = some 96 ∧
    fromBE4 (putUint32be ((trackBytes morse bpm).length)) =
      (trackBytes morse bpm).length := by
  refine ⟨?_, by decide, by decide, by decide, by rfl, ?_⟩
  · rw [createMIDIdata, if_neg (by omega)]
    rw [Nat.mod_eq_of_lt h2]
  · rw [putUint32be]
    simp only [fromBE4]
    rw [nat_shr24, nat_shr16, nat_shr8]
    omega

/-- Witness for C5 with the empty symbol string at BPM 120. -/
theorem C5_witness :
    createMIDIdata [] 120 =
      some (headerBytes ++ trackHeaderBytes ++
        putUint32be ((trackBytes [] 120).length) ++ trackBytes [] 120) ∧
    fromBE4 (putUint32be ((trackBytes [] 120).length)) = (trackBytes [] 120).length := by
  have hlen : (trackBytes [] 120).length = 11 := by
    rw [trackBytes, tempoEvent_eq]
    simp [trackBody, writeVarLength_eq, contBytes_zero]
  have h := C5_file_layout [] 120 (by norm_num) (by rw [hlen]; norm_num)
  exact ⟨h.1, h.2.2.2.2.2⟩

/-! ## CLI action and main (src/main.go lines 130–168)

The `Action` closure is modelled as a pure function from the positional
arguments and the `--bpm` flag value to either a panic (`none`, reached only
through the unguarded division in `createMIDI`), an error result, or the
single file write it performs. `main` turns an error into exit code 1. Go's
`unicode.IsSpace` is modelled on the ASCII whitespace characters. -/

def isSpaceGo (c : Char) : Bool :=
  c = ' ' || c = '\t' || c = '\n' || c = '\x0b' || c = '\x0c' || c = '\r'

def trimSpace (s : List Char) : List Char :=
  (((s.dropWhile isSpaceGo).reverse).dropWhile isSpaceGo).reverse

def joinArgs (args : List (List Char)) : List Char :=
  joinSep [' '] args

def outputFile (text : List Char) : List Char :=
  (text.map (fun c => if c = ' ' then '-' else c)) ++ ".mid".toList

def runAction (args : List (List Char)) (bpm : Nat) :
    Option (Except (List Char) (List Char × List Nat)) :=
  let text := joinArgs args
  if trimSpace text = [] then
    some (Except.error ("no text provided, please provide text to convert to Morse code".toList))
  else
    match createMIDIdata (textToMorse text) bpm with
    | none => none
    | some data => some (Except.ok (outputFile text, data))

/-- Exit code and the list of file writes performed: `main` exits 1 when the
action returns an error, 0 on success; `none` is a panic. -/
def mainModel (args : List (List Char)) (bpm : Nat) :
    Option (Nat × List (List Char × List Nat)) :=
  match runAction args bpm with
  | none => none
  | some (Except.error _) => some (1, [])
  | some (Except.ok (f, d)) => some (0, [(f, d)])

/-- C9: whenever the joined input text trims to nothing, the program exits
with code 1 and performs no file write, for any BPM — the rejection happens
before the file-producing step, so no file with an empty-derived name is ever
created. -/
theorem C9_empty_input (args : List (List Char)) (bpm : Nat)
    (h : trimSpace (joinArgs args) = []) :
    mainModel args bpm = some (1, []) := by
  unfold mainModel runAction
  simp [h]

/-- Witness for C9: a single all-whitespace argument at the default BPM. -/
theorem C9_witness : mainModel [" ".toList] 120 = some (1, []) := by
  exact C9_empty_input [" ".toList] 120 (by decide)

/-- C10: nothing validates the BPM — the action model reaches the unguarded
division `60000000 / bpm` for any non-empty input, so `bpm = 0` panics
(division by zero), while every `bpm ≥ 1` makes the whole in-memory
construction total. -/
theorem C10_bpm_unguarded (morse : List Char) (bpm : Nat) (h : 1 ≤ bpm) :
    createMIDIdata morse 0 = none ∧
    (∃ data, createMIDIdata morse bpm = some data) ∧
    (∀ args, trimSpace (joinArgs args) ≠ [] → runAction args 0 = none) := by
  refine ⟨rfl, ?_, ?_⟩
  · exact ⟨headerBytes ++ trackHeaderBytes ++
      putUint32be ((trackBytes morse bpm).length % 2 ^ 32) ++ trackBytes morse bpm,
      by rw [createMIDIdata, if_neg (by omega)]⟩
  · intro args hne
    unfold runAction
    simp only [hne, if_neg]
    rfl

/-- Witness for C10 at BPM 120 with a concrete symbol string. -/
theorem C10_witness :
    createMIDIdata ".".toList 0 = none ∧
    (∃ data, createMIDIdata ".".toList 120 = some data) := by
  have h := C10_bpm_unguarded ".".toList 120 (by norm_num)
  exact ⟨h.1, h.2.1⟩
